import Mathlib

/-!
Shallow embedding of the agno-client streaming run client: the event model
(`RunEvent`, `ClientEvent` from packages/types/src/events.ts), the React hook
behaviours (`useAgnoCustomEvents`, `useAgnoSession`), and — for the parts of
the core whose code is not present in the repository snapshot (stream decoder,
run-state reducer, transport parameter merging) — models built from the spec's
own algorithm and transition-table descriptions.
-/

namespace Agno

/-- Tags of every event the backend may emit during a run.
Embedded from the `RunEvent` string enum in src/packages/types/src/events.ts. -/
inductive RunEvent where
  | RunStarted
  | RunContent
  | RunCompleted
  | RunError
  | RunOutput
  | UpdatingMemory
  | ToolCallStarted
  | ToolCallCompleted
  | MemoryUpdateStarted
  | MemoryUpdateCompleted
  | ReasoningStarted
  | ReasoningStep
  | ReasoningCompleted
  | RunCancelled
  | RunPaused
  | RunContinued
  | TeamRunStarted
  | TeamRunContent
  | TeamRunCompleted
  | TeamRunError
  | TeamRunCancelled
  | TeamToolCallStarted
  | TeamToolCallCompleted
  | TeamReasoningStarted
  | TeamReasoningStep
  | TeamReasoningCompleted
  | TeamMemoryUpdateStarted
  | TeamMemoryUpdateCompleted
  | CustomEvent
deriving DecidableEq, Repr

/-- The wire string of each `RunEvent` tag, exactly the enum values in
src/packages/types/src/events.ts. -/
def RunEvent.tagName : RunEvent → String
  | .RunStarted => "RunStarted"
  | .RunContent => "RunContent"
  | .RunCompleted => "RunCompleted"
  | .RunError => "RunError"
  | .RunOutput => "RunOutput"
  | .UpdatingMemory => "UpdatingMemory"
  | .ToolCallStarted => "ToolCallStarted"
  | .ToolCallCompleted => "ToolCallCompleted"
  | .MemoryUpdateStarted => "MemoryUpdateStarted"
  | .MemoryUpdateCompleted => "MemoryUpdateCompleted"
  | .ReasoningStarted => "ReasoningStarted"
  | .ReasoningStep => "ReasoningStep"
  | .ReasoningCompleted => "ReasoningCompleted"
  | .RunCancelled => "RunCancelled"
  | .RunPaused => "RunPaused"
  | .RunContinued => "RunContinued"
  | .TeamRunStarted => "TeamRunStarted"
  | .TeamRunContent => "TeamRunContent"
  | .TeamRunCompleted => "TeamRunCompleted"
  | .TeamRunError => "TeamRunError"
  | .TeamRunCancelled => "TeamRunCancelled"
  | .TeamToolCallStarted => "TeamToolCallStarted"
  | .TeamToolCallCompleted => "TeamToolCallCompleted"
  | .TeamReasoningStarted => "TeamReasoningStarted"
  | .TeamReasoningStep => "TeamReasoningStep"
  | .TeamReasoningCompleted => "TeamReasoningCompleted"
  | .TeamMemoryUpdateStarted => "TeamMemoryUpdateStarted"
  | .TeamMemoryUpdateCompleted => "TeamMemoryUpdateCompleted"
  | .CustomEvent => "CustomEvent"

/-- All `RunEvent` variants, in source declaration order. -/
def allRunEvents : List RunEvent :=
  [.RunStarted, .RunContent, .RunCompleted, .RunError, .RunOutput,
   .UpdatingMemory, .ToolCallStarted, .ToolCallCompleted,
   .MemoryUpdateStarted, .MemoryUpdateCompleted,
   .ReasoningStarted, .ReasoningStep, .ReasoningCompleted,
   .RunCancelled, .RunPaused, .RunContinued,
   .TeamRunStarted, .TeamRunContent, .TeamRunCompleted, .TeamRunError,
   .TeamRunCancelled, .TeamToolCallStarted, .TeamToolCallCompleted,
   .TeamReasoningStarted, .TeamReasoningStep, .TeamReasoningCompleted,
   .TeamMemoryUpdateStarted, .TeamMemoryUpdateCompleted, .CustomEvent]

/-- The wire tag strings of all enumerated `RunEvent` variants. -/
def runEventTagNames : List String := allRunEvents.map RunEvent.tagName

/-- Result of dispatching an incoming frame's event tag: either one of the
enumerated `RunEvent` variants, or a designated unrecognized variant keeping
the raw tag. Modelled from the spec: the event-type dispatch is described in
the design notes as a closed tagged union in which unknown tags map to a
designated unrecognized variant rather than being silently dropped; the
dispatch code itself is not part of the repository snapshot. -/
inductive RunEventTag where
  | known (e : RunEvent)
  | unrecognized (tag : String)
deriving DecidableEq, Repr

/-- Modelled from the spec: tag-keyed dispatch over all `RunEvent` variants;
a tag matching no enumerated variant becomes `RunEventTag.unrecognized`. -/
def toRunEventTag (s : String) : RunEventTag :=
  match allRunEvents.find? (fun e => e.tagName = s) with
  | some e => .known e
  | none => .unrecognized s

/-- Names of all events the `AgnoClient` emits to subscribers.
Embedded from the `ClientEvent` union type in
src/packages/types/src/events.ts, in source order. -/
def clientEventNames : List String :=
  ["message:update", "message:complete", "message:refreshed", "message:error",
   "session:loaded", "session:created",
   "stream:start", "stream:end",
   "state:change", "config:change",
   "run:paused", "run:continued", "run:cancelled",
   "ui:update", "ui:complete", "ui:render",
   "custom:event",
   "member:event", "member:started", "member:content", "member:completed",
   "member:error"]

/-- Bytes of a string, used to compare wire tags inside byte-level frames. -/
def strBytes (s : String) : List Nat := s.toList.map Char.toNat

/-- Decode a byte list back to a string (inverse of `strBytes` on valid data). -/
def bytesToString (l : List Nat) : String := String.mk (l.map Char.ofNat)

/-- Frame delimiter byte: the newline record boundary of the wire format. -/
def delim : Nat := 10

/-- Separator between the event-tag field and the rest of a frame payload. -/
def tagSep : Nat := 58

/-- One decoded protocol event: either a frame dispatched by its event tag, or
an error-classified event for a malformed frame. Modelled from the spec: the
decoder's output type; the decoder code is not part of the repository
snapshot. -/
inductive StreamEvent where
  | event (tag : RunEventTag) (payload : List Nat)
  | decodeError (raw : List Nat)
deriving DecidableEq, Repr

/-- Modelled from the spec: parse one complete frame into a `StreamEvent` by
its tag field (the bytes before the first separator); a frame with no tag
separator is malformed and yields an error-classified event instead of
aborting the sequence. -/
def parseFrame (f : List Nat) : StreamEvent :=
  if f.any (fun c => c = tagSep) then
    .event (toRunEventTag (bytesToString (f.takeWhile (fun c => decide (c ≠ tagSep))))) f
  else
    .decodeError f

/-- Extract the first complete frame (the bytes before the first delimiter)
and the remaining bytes, or `none` when no delimiter is present. -/
def takeFrame : List Nat → Option (List Nat × List Nat)
  | [] => none
  | c :: rest =>
    if c = delim then some ([], rest)
    else
      match takeFrame rest with
      | none => none
      | some (f, r) => some (c :: f, r)

theorem takeFrame_length : ∀ (l f r : List Nat), takeFrame l = some (f, r) → r.length < l.length := by
  intro l
  induction l with
  | nil => intro f r h; simp [takeFrame] at h
  | cons c rest ih =>
    intro f r h
    simp only [takeFrame] at h
    by_cases hc : c = delim
    · simp [hc] at h
      rw [← h.2]
      simp [List.length_cons]
    · simp [hc] at h
      cases hr : takeFrame rest with
      | none => rw [hr] at h; simp at h
      | some p =>
        rw [hr] at h
        simp at h
        have hlt := ih p.1 p.2 (by rw [hr])
        rw [← h.2]
        simp only [List.length_cons]
        omega

/-- Modelled from the spec: repeatedly extract one complete frame from the
front of the buffer, stopping when no complete frame remains and retaining the
remainder. -/
def extractFrames (l : List Nat) : List (List Nat) × List Nat :=
  match h : takeFrame l with
  | none => ([], l)
  | some (f, r) =>
    let p := extractFrames r
    (f :: p.1, p.2)
termination_by l.length
decreasing_by exact takeFrame_length l f r h

/-- Decoder state: the single pending buffer of bytes not yet forming a
complete frame. Modelled from the spec. -/
structure DecoderState where
  buffer : List Nat
deriving DecidableEq, Repr

/-- Modelled from the spec: on each chunk, append to the buffer, extract every
complete frame from the front, parse each into a `StreamEvent`, and retain the
remainder as the new buffer. -/
def feedChunk (st : DecoderState) (chunk : List Nat) : List StreamEvent × DecoderState :=
  let p := extractFrames (st.buffer ++ chunk)
  (p.1.map parseFrame, ⟨p.2⟩)

/-- Feed a sequence of chunks through the decoder from a given state,
collecting all yielded events in order. -/
def decodeFrom (st : DecoderState) (chunks : List (List Nat)) : List StreamEvent × DecoderState :=
  chunks.foldl
    (fun acc c =>
      let p := feedChunk acc.2 c
      (acc.1 ++ p.1, p.2))
    ([], st)

/-- The full ordered event sequence the decoder yields for a sequence of
chunks, starting from an empty buffer. -/
def decodeChunks (chunks : List (List Nat)) : List StreamEvent :=
  (decodeFrom ⟨[]⟩ chunks).1

/-- Wire encoding of a sequence of frames: each frame followed by the record
delimiter. -/
def encodeFrames (fs : List (List Nat)) : List Nat :=
  (fs.map (fun f => f ++ [delim])).flatten

theorem extractFrames_none (l : List Nat) (h : takeFrame l = none) :
    extractFrames l = ([], l) := by
  rw [extractFrames.eq_def]
  split
  · rfl
  · rename_i f r h'
    rw [h] at h'
    exact absurd h' (by simp)

theorem extractFrames_some (l f r : List Nat) (h : takeFrame l = some (f, r)) :
    extractFrames l = (f :: (extractFrames r).1, (extractFrames r).2) := by
  rw [extractFrames.eq_def]
  split
  · rename_i h'
    rw [h] at h'
    exact absurd h' (by simp)
  · rename_i f' r' h'
    rw [h] at h'
    cases h'
    rfl

theorem takeFrame_cons (c : Nat) (rest : List Nat) :
    takeFrame (c :: rest) =
      if c = delim then some ([], rest)
      else
        match takeFrame rest with
        | none => none
        | some (f, r) => some (c :: f, r) := rfl

theorem extractFrames_rest (l : List Nat) : takeFrame (extractFrames l).2 = none := by
  suffices hfuel : ∀ (n : Nat) (l : List Nat), l.length ≤ n → takeFrame (extractFrames l).2 = none from
    hfuel l.length l le_rfl
  intro n
  induction n with
  | zero =>
    intro l hl
    have : l = [] := List.eq_nil_of_length_eq_zero (Nat.le_zero.mp hl)
    rw [this, extractFrames_none [] rfl]
    rfl
  | succ n ih =>
    intro l hl
    cases h : takeFrame l with
    | none =>
      rw [extractFrames_none l h]
      exact h
    | some p =>
      have h' : takeFrame l = some (p.1, p.2) := by simpa using h
      rw [extractFrames_some l p.1 p.2 h']
      exact ih p.2 (by have := takeFrame_length l p.1 p.2 h'; omega)

theorem takeFrame_append_some (a b f r : List Nat) (h : takeFrame a = some (f, r)) :
    takeFrame (a ++ b) = some (f, r ++ b) := by
  induction a generalizing f r with
  | nil => simp [takeFrame] at h
  | cons c a ih =>
    rw [takeFrame_cons] at h
    rw [List.cons_append, takeFrame_cons]
    by_cases hc : c = delim
    · rw [if_pos hc] at h
      rw [if_pos hc]
      cases h
      rfl
    · rw [if_neg hc] at h
      rw [if_neg hc]
      cases hr : takeFrame a with
      | none => rw [hr] at h; exact absurd h (by simp)
      | some p =>
        rw [hr] at h
        cases p with
        | mk g s =>
          simp only [Option.some.injEq, Prod.mk.injEq] at h
          rw [ih g s hr]
          simp [← h.1, ← h.2]

theorem extractFrames_append (a b : List Nat) :
    extractFrames (a ++ b) =
      ((extractFrames a).1 ++ (extractFrames ((extractFrames a).2 ++ b)).1,
       (extractFrames ((extractFrames a).2 ++ b)).2) := by
  suffices hfuel : ∀ (n : Nat) (a : List Nat), a.length ≤ n →
      extractFrames (a ++ b) =
        ((extractFrames a).1 ++ (extractFrames ((extractFrames a).2 ++ b)).1,
         (extractFrames ((extractFrames a).2 ++ b)).2) from
    hfuel a.length a le_rfl
  intro n
  induction n with
  | zero =>
    intro a ha
    have : a = [] := List.eq_nil_of_length_eq_zero (Nat.le_zero.mp ha)
    rw [this, extractFrames_none [] rfl]
    simp
  | succ n ih =>
    intro a ha
    cases h : takeFrame a with
    | none =>
      rw [extractFrames_none a h]
      simp
    | some p =>
      have h' : takeFrame a = some (p.1, p.2) := by simpa using h
      rw [extractFrames_some a p.1 p.2 h']
      rw [extractFrames_some (a ++ b) p.1 (p.2 ++ b) (takeFrame_append_some a b p.1 p.2 h')]
      rw [ih p.2 (by have := takeFrame_length a p.1 p.2 h'; omega)]
      simp

theorem decodeFold_acc (cs : List (List Nat)) :
    ∀ (evs : List StreamEvent) (st : DecoderState),
      cs.foldl (fun acc c => let p := feedChunk acc.2 c; (acc.1 ++ p.1, p.2)) (evs, st) =
        (evs ++ (decodeFrom st cs).1, (decodeFrom st cs).2) := by
  induction cs with
  | nil => intro evs st; simp [decodeFrom]
  | cons c cs ih =>
    intro evs st
    simp only [decodeFrom, List.foldl_cons]
    rw [ih, ih]
    simp

theorem decodeFrom_join (cs : List (List Nat)) :
    ∀ (st : DecoderState), takeFrame st.buffer = none →
      decodeFrom st cs = feedChunk st cs.flatten := by
  induction cs with
  | nil =>
    intro st h
    cases st with
    | mk buf =>
      simp only [decodeFrom, List.foldl_nil, List.flatten_nil, feedChunk]
      rw [List.append_nil]
      rw [extractFrames_none buf h]
      rfl
  | cons c cs ih =>
    intro st h
    simp only [decodeFrom, List.foldl_cons]
    rw [decodeFold_acc]
    have hinv : takeFrame (feedChunk st c).2.buffer = none := extractFrames_rest _
    rw [show (decodeFrom (feedChunk st c).2 cs) = feedChunk (feedChunk st c).2 cs.flatten from ih _ hinv]
    simp only [feedChunk, List.flatten_cons, List.nil_append]
    rw [show st.buffer ++ (c ++ cs.flatten) = (st.buffer ++ c) ++ cs.flatten from (List.append_assoc _ _ _).symm]
    rw [extractFrames_append (st.buffer ++ c) cs.flatten]
    simp

theorem decodeChunks_eq_single (cs : List (List Nat)) :
    decodeChunks cs = decodeChunks [cs.flatten] := by
  unfold decodeChunks
  rw [decodeFrom_join cs ⟨[]⟩ rfl, decodeFrom_join [cs.flatten] ⟨[]⟩ rfl]
  simp

theorem takeFrame_encode (f r : List Nat) (hf : delim ∉ f) :
    takeFrame (f ++ delim :: r) = some (f, r) := by
  induction f with
  | nil => simp [takeFrame]
  | cons c f ih =>
    have hc : c ≠ delim := fun e => hf (by simp [e])
    have hf' : delim ∉ f := fun m => hf (List.mem_cons_of_mem c m)
    simp [takeFrame, hc, ih hf']

theorem extractFrames_encode (fs : List (List Nat)) (h : ∀ f ∈ fs, delim ∉ f) :
    extractFrames (encodeFrames fs) = (fs, []) := by
  induction fs with
  | nil =>
    have : encodeFrames [] = ([] : List Nat) := rfl
    rw [this, extractFrames_none [] rfl]
  | cons f fs ih =>
    have h1 : delim ∉ f := h f (List.mem_cons_self f fs)
    have henc : encodeFrames (f :: fs) = f ++ delim :: encodeFrames fs := by
      simp [encodeFrames]
    rw [henc, extractFrames_some _ f (encodeFrames fs) (takeFrame_encode f _ h1),
      ih (fun g hg => h g (List.mem_cons_of_mem _ hg))]

/-- Run-state phases of the reducer state machine. Modelled from the spec:
Idle is the pre-start state; Completed, Errored and Cancelled are terminal. -/
inductive Phase where
  | Idle
  | Streaming
  | Paused
  | Completed
  | Errored
  | Cancelled
deriving DecidableEq, Repr

/-- A terminal phase accepts no further events for its run id. -/
def Phase.isTerminal : Phase → Bool
  | .Completed => true
  | .Errored => true
  | .Cancelled => true
  | _ => false

/-- Execution status of a tool call; transitions are one-directional, and a
cancelled run forces pending or executing tool calls into `cancelled`. -/
inductive ToolStatus where
  | pending
  | executing
  | completed
  | error
  | cancelled
deriving DecidableEq, Repr

/-- A backend-requested tool invocation. Modelled from the spec. -/
structure ToolCall where
  id : String
  name : String
  status : ToolStatus
  result : Option String
deriving DecidableEq, Repr

/-- One conversation message: accumulated content built from content-delta
events, attached tool calls, and a completion flag. Modelled from the spec. -/
structure ChatMessage where
  role : String
  content : String
  toolCalls : List ToolCall
  complete : Bool
deriving DecidableEq, Repr

/-- The aggregate owned exclusively by the reducer for one run. Modelled from
the spec. -/
structure RunState where
  phase : Phase
  messages : List ChatMessage
  streaming : Bool
  paused : Bool
  error : Option String
  pendingTools : List ToolCall
deriving DecidableEq, Repr

/-- The initial pre-start run state. -/
def initialRunState : RunState :=
  { phase := .Idle, messages := [], streaming := false, paused := false,
    error := none, pendingTools := [] }

/-- Decoded run events as consumed by the reducer, carrying the tag-specific
fields the transition table uses. Modelled from the spec. -/
inductive RunEvt where
  | runStarted
  | runContent (fragment : String)
  | toolCallStarted (id : String) (name : String)
  | toolCallCompleted (id : String) (result : String)
  | runPaused (tools : List ToolCall)
  | runContinued
  | runCompleted
  | runError (message : String)
  | runCancelled
  | customEvent (data : String)
deriving DecidableEq, Repr

/-- A fresh assistant message opened by a content fragment. -/
def freshMessage (fragment : String) : ChatMessage :=
  { role := "assistant", content := fragment, toolCalls := [], complete := false }

/-- Append a content fragment to the active (last) message, opening a new
message when none is open. Modelled from the spec. -/
def appendToActive : List ChatMessage → String → List ChatMessage
  | [], fragment => [freshMessage fragment]
  | [m], fragment =>
    if m.complete then [m, freshMessage fragment]
    else [{ m with content := m.content ++ fragment }]
  | m :: rest, fragment => m :: appendToActive rest fragment

/-- Update the matching tool call by id to executing; if the id is unknown,
create it. Modelled from the spec. -/
def upsertToolStarted (tcs : List ToolCall) (id name : String) : List ToolCall :=
  if tcs.any (fun t => t.id = id) then
    tcs.map (fun t => if t.id = id then { t with name := name, status := .executing } else t)
  else
    tcs ++ [{ id := id, name := name, status := .executing, result := none }]

/-- Update the matching tool call by id to completed with its result; if the
id is unknown, create it. Modelled from the spec. -/
def upsertToolCompleted (tcs : List ToolCall) (id result : String) : List ToolCall :=
  if tcs.any (fun t => t.id = id) then
    tcs.map (fun t => if t.id = id then { t with status := .completed, result := some result } else t)
  else
    tcs ++ [{ id := id, name := "", status := .completed, result := some result }]

/-- Apply a tool-call list transformation to the active (last) message. -/
def updateActiveTools : List ChatMessage → (List ToolCall → List ToolCall) → List ChatMessage
  | [], _ => []
  | [m], g => [{ m with toolCalls := g m.toolCalls }]
  | m :: rest, g => m :: updateActiveTools rest g

/-- Mark every message complete. -/
def completeAll (ms : List ChatMessage) : List ChatMessage :=
  ms.map (fun m => { m with complete := true })

/-- Modelled from the spec: the run-state reducer's transition table. Takes
one decoded run event into the run state, returning the mutated state and the
granular client events emitted for the transition. A terminal state accepts no
further events for the run id; events only meaningful in a given phase are
ignored elsewhere (the reducer trusts backend ordering). -/
def applyEvent (st : RunState) (e : RunEvt) : RunState × List String :=
  if st.phase.isTerminal then (st, [])
  else
    match e with
    | .runStarted =>
      if st.phase = .Idle then
        ({ phase := .Streaming, messages := [], streaming := true, paused := false,
           error := none, pendingTools := [] }, ["stream:start"])
      else (st, [])
    | .runContent fragment =>
      if st.phase = .Streaming then
        ({ st with messages := appendToActive st.messages fragment }, ["message:update"])
      else (st, [])
    | .toolCallStarted id name =>
      if st.phase = .Streaming then
        ({ st with messages := updateActiveTools st.messages (fun tcs => upsertToolStarted tcs id name) },
         ["ui:update"])
      else (st, [])
    | .toolCallCompleted id result =>
      if st.phase = .Streaming then
        ({ st with messages := updateActiveTools st.messages (fun tcs => upsertToolCompleted tcs id result) },
         ["ui:complete"])
      else (st, [])
    | .runPaused tools =>
      if st.phase = .Streaming then
        ({ st with phase := .Paused, paused := true, pendingTools := tools }, ["run:paused"])
      else (st, [])
    | .runContinued =>
      if st.phase = .Paused then
        ({ st with phase := .Streaming, paused := false }, ["run:continued"])
      else (st, [])
    | .runCompleted =>
      ({ st with phase := .Completed, messages := completeAll st.messages,
                 streaming := false, paused := false },
       ["message:complete", "stream:end"])
    | .runError message =>
      ({ st with phase := .Errored, messages := completeAll st.messages,
                 streaming := false, paused := false, error := some message,
                 pendingTools := st.pendingTools.map (fun t => { t with status := .error }) },
       ["message:error", "stream:end"])
    | .runCancelled =>
      ({ st with phase := .Cancelled, messages := completeAll st.messages,
                 streaming := false, paused := false,
                 pendingTools := st.pendingTools.map (fun t => { t with status := .cancelled }) },
       ["run:cancelled"])
    | .customEvent _ => (st, ["custom:event"])

/-- A non-streaming transport call issued by the façade. Modelled from the
spec. -/
structure TransportRequest where
  path : String
  body : List (String × String)
deriving DecidableEq, Repr

/-- The rejection message for `continueRun` outside Paused. -/
def continueRunRejection : String := "continueRun is only valid while the run is paused"

/-- Modelled from the spec: the façade operation `continueRun` — valid only
when the targeted run is Paused, in which case it supplies resolved tool
outputs via one transport call and resumes the pipeline (Paused to Streaming);
otherwise it is rejected with no state mutation and no transport call. -/
def continueRun (st : RunState) (toolResults : List (String × String)) :
    Except String (RunState × TransportRequest) :=
  if st.phase = .Paused then
    .ok ({ st with phase := .Streaming, paused := false, streaming := true, pendingTools := [] },
         { path := "runs/continue", body := toolResults })
  else
    .error continueRunRejection

/-- Modelled from the spec: merge a global header or query-parameter map with
a per-call map, key-for-key, with per-call values overriding global values
(precedence per-call over global). Maps are association lists looked up by
first occurrence. -/
def mergeMaps (globalMap percall : List (String × String)) : List (String × String) :=
  percall ++ globalMap.filter (fun p => (percall.lookup p.1).isNone)

/-- Canonical shape of an outgoing request: content plus the effective query
parameters and headers attached to it. Modelled from the spec. -/
structure Request where
  content : String
  params : List (String × String)
  headers : List (String × String)
deriving DecidableEq, Repr

/-- Modelled from the spec: construct a request from content, configured
global maps and per-call maps, attaching the merged parameters and headers. -/
def buildRequest (content : String)
    (globalParams callParams globalHeaders callHeaders : List (String × String)) : Request :=
  { content := content,
    params := mergeMaps globalParams callParams,
    headers := mergeMaps globalHeaders callHeaders }

/-- Modelled from the spec: decode the canonical request shape back into its
content, parameter map and header map. -/
def decodeRequest (r : Request) : String × List (String × String) × List (String × String) :=
  (r.content, r.params, r.headers)

theorem lookup_filter_none (g : List (String × String)) (p : List (String × String))
    (k : String) (hp : p.lookup k = none) :
    (g.filter (fun q => (p.lookup q.1).isNone)).lookup k = g.lookup k := by
  induction g with
  | nil => rfl
  | cons q g ih =>
    cases q with
    | mk k' v =>
      simp only [List.filter]
      cases hkeep : (p.lookup (k', v).1).isNone with
      | true =>
        simp only [List.lookup]
        cases hbk : (k == k') <;> simp [hbk, ih]
      | false =>
        have hk : (k == k') = false := by
          cases hbk : (k == k') with
          | false => rfl
          | true =>
            have he : k = k' := by simpa using hbk
            rw [he] at hp
            rw [hp] at hkeep
            simp at hkeep
        simp only [List.lookup, hk]
        exact ih

theorem lookup_append_maps (a b : List (String × String)) (k : String) :
    (a ++ b).lookup k = ((a.lookup k).or (b.lookup k)) := by
  induction a with
  | nil => simp [List.lookup]
  | cons q a ih =>
    cases q with
    | mk k' v =>
      simp only [List.cons_append, List.lookup]
      cases hbk : (k == k') <;> simp [hbk, ih]

theorem mergeMaps_lookup (g p : List (String × String)) (k : String) :
    (mergeMaps g p).lookup k = ((p.lookup k).or (g.lookup k)) := by
  unfold mergeMaps
  rw [lookup_append_maps]
  cases hp : p.lookup k with
  | none => rw [lookup_filter_none g p k hp]
  | some v => rfl

/-- Payload of one custom event forwarded verbatim to subscribers, modelled
as a record of string fields (the TS type is a string-keyed record). -/
def CustomEventData : Type := List (String × String)

instance : DecidableEq CustomEventData := by
  unfold CustomEventData
  infer_instance

/-- State of one mounted `useAgnoCustomEvents` hook: the accumulated custom
events and whether the client subscription is active. Embedded from
src/packages/react/src/hooks/useAgnoCustomEvents.ts. -/
structure CustomEventsHook where
  events : List CustomEventData
  subscribed : Bool

/-- Hook state right after mount: no accumulated events, subscribed to
`custom:event` by the mount effect. -/
def mountCustomEventsHook : CustomEventsHook :=
  { events := [], subscribed := true }

/-- Embedded from `handleCustomEvent` in useAgnoCustomEvents.ts: append the
event to the end of the accumulated list, then invoke the currently supplied
handler (when one is supplied) with that event. The second component records
the argument the handler is invoked with, `none` when no handler is set. -/
def handleCustomEvent (st : CustomEventsHook) (e : CustomEventData)
    (hasHandler : Bool) : CustomEventsHook × Option CustomEventData :=
  ({ st with events := st.events ++ [e] }, if hasHandler then some e else none)

/-- Embedded from `clearEvents` in useAgnoCustomEvents.ts: reset the
accumulated list to empty; the subscription is untouched. -/
def clearEvents (st : CustomEventsHook) : CustomEventsHook :=
  { st with events := [] }

/-- Receive a sequence of custom events in arrival order. -/
def receiveAll (st : CustomEventsHook) (es : List CustomEventData) (hasHandler : Bool) :
    CustomEventsHook :=
  es.foldl (fun s e => (handleCustomEvent s e hasHandler).1) st

theorem receiveAll_events (es : List CustomEventData) :
    ∀ (st : CustomEventsHook) (hh : Bool), (receiveAll st es hh).events = st.events ++ es := by
  induction es with
  | nil => intro st hh; simp [receiveAll]
  | cons e es ih =>
    intro st hh
    simp only [receiveAll, List.foldl_cons] at ih ⊢
    rw [ih]
    simp [handleCustomEvent]

/-- A session list entry as consumed by `useAgnoSession`. -/
structure SessionEntry where
  session_id : String
  title : String
deriving DecidableEq, Repr

/-- State of one mounted `useAgnoSession` hook: the sessions list and the
current session id. -/
structure SessionHookState where
  sessions : List SessionEntry
  currentSessionId : Option String
deriving DecidableEq, Repr

/-- Embedded from `handleSessionCreated` in the session hook (the reaction to
a `session:created` client event): prepend the new session to the sessions
list and set the current session id to its `session_id`. -/
def handleSessionCreated (st : SessionHookState) (s : SessionEntry) : SessionHookState :=
  { st with sessions := s :: st.sessions, currentSessionId := some s.session_id }

/-- The monotonicity relation between an old and new message list: the list
only grows, each retained message's accumulated content length is
non-decreasing, and a completion flag once true stays true. -/
def MessagesMono (old new : List ChatMessage) : Prop :=
  old.length ≤ new.length ∧
  ∀ (i : Nat) (h : i < old.length) (h2 : i < new.length),
    (old.get ⟨i, h⟩).content.length ≤ (new.get ⟨i, h2⟩).content.length ∧
    ((old.get ⟨i, h⟩).complete = true → (new.get ⟨i, h2⟩).complete = true)

theorem messagesMono_refl (ms : List ChatMessage) : MessagesMono ms ms :=
  ⟨le_rfl, fun _ _ _ => ⟨le_rfl, fun hc => hc⟩⟩

theorem messagesMono_appendToActive (f : String) (ms : List ChatMessage) :
    MessagesMono ms (appendToActive ms f) := by
  induction ms with
  | nil => exact ⟨by simp [appendToActive], fun i h _ => absurd h (by simp)⟩
  | cons m rest ih =>
    cases rest with
    | nil =>
      by_cases hc : m.complete
      · refine ⟨by simp [appendToActive, hc], ?_⟩
        intro i h h2
        have hi : i = 0 := by
          simp only [List.length_singleton] at h
          omega
        subst hi
        simp [appendToActive, hc]
      · refine ⟨by simp [appendToActive, hc], ?_⟩
        intro i h h2
        have hi : i = 0 := by
          simp only [List.length_singleton] at h
          omega
        subst hi
        simp [appendToActive, hc]
    | cons r t =>
      obtain ⟨ihlen, ihget⟩ := ih
      refine ⟨?_, ?_⟩
      · show (m :: r :: t).length ≤ (m :: appendToActive (r :: t) f).length
        simpa using ihlen
      · intro i h h2
        cases i with
        | zero => exact ⟨le_rfl, fun hc => hc⟩
        | succ j =>
          have hj : j < (r :: t).length := by simpa using h
          have hj2 : j < (appendToActive (r :: t) f).length := by
            have : (m :: appendToActive (r :: t) f : List ChatMessage).length =
                (appendToActive (r :: t) f).length + 1 := by simp
            omega
          simpa using ihget j hj hj2

theorem messagesMono_updateActiveTools (g : List ToolCall → List ToolCall)
    (ms : List ChatMessage) : MessagesMono ms (updateActiveTools ms g) := by
  induction ms with
  | nil => exact ⟨by simp [updateActiveTools], fun i h _ => absurd h (by simp)⟩
  | cons m rest ih =>
    cases rest with
    | nil =>
      refine ⟨by simp [updateActiveTools], ?_⟩
      intro i h h2
      have hi : i = 0 := by
        simp only [List.length_singleton] at h
        omega
      subst hi
      simp [updateActiveTools]
    | cons r t =>
      obtain ⟨ihlen, ihget⟩ := ih
      refine ⟨?_, ?_⟩
      · show (m :: r :: t).length ≤ (m :: updateActiveTools (r :: t) g).length
        simpa using ihlen
      · intro i h h2
        cases i with
        | zero => exact ⟨le_rfl, fun hc => hc⟩
        | succ j =>
          have hj : j < (r :: t).length := by simpa using h
          have hj2 : j < (updateActiveTools (r :: t) g).length := by
            have : (m :: updateActiveTools (r :: t) g : List ChatMessage).length =
                (updateActiveTools (r :: t) g).length + 1 := by simp
            omega
          simpa using ihget j hj hj2

theorem messagesMono_completeAll (ms : List ChatMessage) :
    MessagesMono ms (completeAll ms) := by
  induction ms with
  | nil => exact ⟨by simp [completeAll], fun i h _ => absurd h (by simp)⟩
  | cons m rest ih =>
    obtain ⟨ihlen, ihget⟩ := ih
    refine ⟨by simp [completeAll], ?_⟩
    intro i h h2
    cases i with
    | zero => exact ⟨le_rfl, fun _ => rfl⟩
    | succ j =>
      have hj : j < rest.length := by simpa using h
      have hj2 : j < (completeAll rest).length := by
        simp only [completeAll, List.length_map]
        exact hj
      simpa [completeAll] using ihget j hj hj2

theorem applyEvent_of_terminal (st : RunState) (e : RunEvt)
    (ht : st.phase.isTerminal = true) : applyEvent st e = (st, []) := by
  simp [applyEvent, ht]

/-- C1: for every sequence of valid frames and every way of splitting their
encoding into chunks at arbitrary byte boundaries, the stream decoder yields
exactly the same ordered sequence of StreamEvent values as when the same
frames arrive unsplit in a single chunk — namely, the frames parsed in
order. -/
theorem decoder_chunk_invariance (fs chunks : List (List Nat))
    (hvalid : ∀ f ∈ fs, delim ∉ f)
    (hsplit : chunks.flatten = encodeFrames fs) :
    decodeChunks chunks = decodeChunks [encodeFrames fs] ∧
    decodeChunks chunks = fs.map parseFrame := by
  have h1 : decodeChunks chunks = decodeChunks [encodeFrames fs] := by
    rw [decodeChunks_eq_single, hsplit]
  refine ⟨h1, ?_⟩
  rw [h1]
  unfold decodeChunks decodeFrom
  simp only [List.foldl_cons, List.foldl_nil, List.nil_append, feedChunk]
  rw [extractFrames_encode fs hvalid]

/-- Witness for C1 at a concrete frame sequence split mid-frame across three
chunks. -/
theorem decoder_chunk_invariance_witness :
    (∀ f ∈ [[82, 117, 110], [88]], delim ∉ f) ∧
    ([[82], [117, 110, 10, 88], [10]] : List (List Nat)).flatten =
      encodeFrames [[82, 117, 110], [88]] ∧
    decodeChunks [[82], [117, 110, 10, 88], [10]] =
      decodeChunks [encodeFrames [[82, 117, 110], [88]]] ∧
    decodeChunks [[82], [117, 110, 10, 88], [10]] =
      ([[82, 117, 110], [88]] : List (List Nat)).map parseFrame :=
  ⟨by decide, by decide,
   (decoder_chunk_invariance [[82, 117, 110], [88]] [[82], [117, 110, 10, 88], [10]]
     (by decide) (by decide)).1,
   (decoder_chunk_invariance [[82, 117, 110], [88]] [[82], [117, 110, 10, 88], [10]]
     (by decide) (by decide)).2⟩

/-- C2: cancelling a run in any non-terminal state yields exactly one terminal
Cancelled state and exactly one run:cancelled emission; a RunCompleted frame
applied after the cancellation is rejected and the run stays Cancelled, while
a completion applied before the cancellation is not retroactively cancelled
(the later cancellation is rejected and emits nothing). -/
theorem cancel_run_exactly_once (st : RunState) (hnt : st.phase.isTerminal = false) :
    ((applyEvent st .runCancelled).1.phase = Phase.Cancelled ∧
     (applyEvent st .runCancelled).2 = ["run:cancelled"]) ∧
    (applyEvent (applyEvent st .runCancelled).1 .runCompleted =
      ((applyEvent st .runCancelled).1, [])) ∧
    (st.phase = Phase.Streaming →
      (applyEvent (applyEvent st .runCompleted).1 .runCancelled).1.phase = Phase.Completed ∧
      (applyEvent (applyEvent st .runCompleted).1 .runCancelled).2 = ([] : List String)) := by
  have h1 : applyEvent st .runCancelled =
      ({ st with phase := .Cancelled, messages := completeAll st.messages,
                 streaming := false, paused := false,
                 pendingTools := st.pendingTools.map (fun t => { t with status := ToolStatus.cancelled }) },
       ["run:cancelled"]) := by
    simp [applyEvent, hnt]
  refine ⟨?_, ?_, ?_⟩
  · rw [h1]
    exact ⟨rfl, rfl⟩
  · rw [h1]
    apply applyEvent_of_terminal
    rfl
  · intro hs
    have h2 : applyEvent st .runCompleted =
        ({ st with phase := .Completed, messages := completeAll st.messages,
                   streaming := false, paused := false },
         ["message:complete", "stream:end"]) := by
      simp [applyEvent, hnt]
    rw [h2]
    have h3 := applyEvent_of_terminal
      ({ st with phase := .Completed, messages := completeAll st.messages,
                 streaming := false, paused := false }) .runCancelled rfl
    rw [h3]
    exact ⟨rfl, rfl⟩

/-- Witness for C2 at a concrete Streaming run state. -/
theorem cancel_run_exactly_once_witness :
    ({ initialRunState with phase := Phase.Streaming } : RunState).phase.isTerminal = false ∧
    (applyEvent { initialRunState with phase := Phase.Streaming } .runCancelled).1.phase =
      Phase.Cancelled ∧
    (applyEvent { initialRunState with phase := Phase.Streaming } .runCancelled).2 =
      ["run:cancelled"] ∧
    (applyEvent (applyEvent { initialRunState with phase := Phase.Streaming } .runCompleted).1
      .runCancelled).1.phase = Phase.Completed :=
  ⟨rfl,
   (cancel_run_exactly_once { initialRunState with phase := Phase.Streaming } rfl).1.1,
   (cancel_run_exactly_once { initialRunState with phase := Phase.Streaming } rfl).1.2,
   ((cancel_run_exactly_once { initialRunState with phase := Phase.Streaming } rfl).2.2 rfl).1⟩

/-- C3: continueRun on a run that is not Paused is rejected with no state
mutation and no transport call; on a Paused run it succeeds, issuing one
transport call and transitioning the run to Streaming. -/
theorem continue_run_requires_paused (st : RunState) (tr : List (String × String)) :
    (st.phase ≠ Phase.Paused → continueRun st tr = Except.error continueRunRejection) ∧
    (st.phase = Phase.Paused →
      continueRun st tr =
        Except.ok
          ({ st with phase := .Streaming, paused := false, streaming := true, pendingTools := [] },
           { path := "runs/continue", body := tr })) := by
  constructor
  · intro hnp
    simp [continueRun, hnp]
  · intro hp
    simp [continueRun, hp]

/-- Witness for C3: rejected at a Streaming run, accepted at a Paused run. -/
theorem continue_run_requires_paused_witness :
    continueRun { initialRunState with phase := Phase.Streaming } [] =
      Except.error continueRunRejection ∧
    continueRun { initialRunState with phase := Phase.Paused } [("t1", "ok")] =
      Except.ok
        ({ initialRunState with
             phase := Phase.Streaming, paused := false,
             streaming := true, pendingTools := [] },
         { path := "runs/continue", body := [("t1", "ok")] }) :=
  ⟨(continue_run_requires_paused { initialRunState with phase := Phase.Streaming } []).1
     (by decide),
   (continue_run_requires_paused { initialRunState with phase := Phase.Paused }
     [("t1", "ok")]).2 rfl⟩

/-- C4: for every step the reducer takes while the run is Streaming, the
message list only grows, each message's accumulated content length is
monotonically non-decreasing, and each message's completion flag only
transitions from false to true, never back. -/
theorem reducer_streaming_monotone (st : RunState) (e : RunEvt)
    (hs : st.phase = Phase.Streaming) :
    MessagesMono st.messages ((applyEvent st e).1).messages := by
  have hnt : st.phase.isTerminal = false := by rw [hs]; rfl
  cases e with
  | runStarted =>
    simp only [applyEvent, hnt, Bool.false_eq_true, if_false, hs]
    exact messagesMono_refl _
  | runContent fragment =>
    simp only [applyEvent, hnt, Bool.false_eq_true, if_false, hs, if_pos]
    exact messagesMono_appendToActive fragment st.messages
  | toolCallStarted id name =>
    simp only [applyEvent, hnt, Bool.false_eq_true, if_false, hs, if_pos]
    exact messagesMono_updateActiveTools _ st.messages
  | toolCallCompleted id result =>
    simp only [applyEvent, hnt, Bool.false_eq_true, if_false, hs, if_pos]
    exact messagesMono_updateActiveTools _ st.messages
  | runPaused tools =>
    simp only [applyEvent, hnt, Bool.false_eq_true, if_false, hs, if_pos]
    exact messagesMono_refl _
  | runContinued =>
    simp only [applyEvent, hnt, Bool.false_eq_true, if_false, hs]
    exact messagesMono_refl _
  | runCompleted =>
    simp only [applyEvent, hnt, Bool.false_eq_true, if_false]
    exact messagesMono_completeAll st.messages
  | runError message =>
    simp only [applyEvent, hnt, Bool.false_eq_true, if_false]
    exact messagesMono_completeAll st.messages
  | runCancelled =>
    simp only [applyEvent, hnt, Bool.false_eq_true, if_false]
    exact messagesMono_completeAll st.messages
  | customEvent data =>
    simp only [applyEvent, hnt, Bool.false_eq_true, if_false]
    exact messagesMono_refl _

/-- Witness for C4: one content delta applied to a Streaming run with an open
message. -/
theorem reducer_streaming_monotone_witness :
    ({ initialRunState with
         phase := Phase.Streaming,
         messages := [{ role := "assistant", content := "He", toolCalls := [], complete := false }] } : RunState).phase
      = Phase.Streaming ∧
    MessagesMono
      [{ role := "assistant", content := "He", toolCalls := [], complete := false }]
      ((applyEvent
          { initialRunState with
              phase := Phase.Streaming,
              messages := [{ role := "assistant", content := "He", toolCalls := [], complete := false }] }
          (.runContent "llo")).1).messages :=
  ⟨rfl,
   reducer_streaming_monotone
     { initialRunState with
         phase := Phase.Streaming,
         messages := [{ role := "assistant", content := "He", toolCalls := [], complete := false }] }
     (.runContent "llo") rfl⟩

/-- C5: once a run has reached a terminal state (Completed, Errored or
Cancelled), the reducer accepts no further event for that run: applying any
event leaves the run state unchanged and emits nothing. -/
theorem terminal_state_absorbs (st : RunState) (e : RunEvt)
    (ht : st.phase.isTerminal = true) : applyEvent st e = (st, []) :=
  applyEvent_of_terminal st e ht

/-- Witness for C5 at a concrete Completed run state. -/
theorem terminal_state_absorbs_witness :
    ({ initialRunState with phase := Phase.Completed } : RunState).phase.isTerminal = true ∧
    applyEvent { initialRunState with phase := Phase.Completed } (.runContent "more") =
      ({ initialRunState with phase := Phase.Completed }, []) :=
  ⟨rfl, terminal_state_absorbs { initialRunState with phase := Phase.Completed }
    (.runContent "more") rfl⟩

/-- C6: the effective parameter and header maps attached to a request are the
key-for-key merges in which per-call values override global values, and
decoding the canonical request shape built from given content, params and
headers recovers exactly these merged maps. -/
theorem request_merge_roundtrip (content : String)
    (gp cp gh ch : List (String × String)) :
    decodeRequest (buildRequest content gp cp gh ch) =
      (content, mergeMaps gp cp, mergeMaps gh ch) ∧
    (∀ k, (mergeMaps gp cp).lookup k = ((cp.lookup k).or (gp.lookup k))) ∧
    (∀ k, (mergeMaps gh ch).lookup k = ((ch.lookup k).or (gh.lookup k))) :=
  ⟨rfl, fun k => mergeMaps_lookup gp cp k, fun k => mergeMaps_lookup gh ch k⟩

/-- C7: the set of event names the client emits to subscribers is exactly the
twenty-two names listed in the claim — no more and no fewer. -/
theorem client_event_names_exact :
    clientEventNames.Perm
      ["message:update", "message:complete", "message:refreshed", "message:error",
       "session:loaded", "session:created", "stream:start", "stream:end",
       "state:change", "config:change", "run:paused", "run:continued", "run:cancelled",
       "ui:update", "ui:complete", "ui:render", "custom:event",
       "member:started", "member:content", "member:completed", "member:error",
       "member:event"] := by
  decide

/-- C8: an incoming frame whose event tag is not one of the enumerated
RunEvent variants is dispatched to the designated unrecognized variant of the
closed tagged union, not silently dropped. -/
theorem unknown_tag_unrecognized (s : String) (h : s ∉ runEventTagNames) :
    toRunEventTag s = .unrecognized s := by
  unfold toRunEventTag
  cases hf : allRunEvents.find? (fun e => e.tagName = s) with
  | none => rfl
  | some e =>
    exfalso
    apply h
    have hmem : e ∈ allRunEvents := List.mem_of_find?_eq_some hf
    have hval := List.find?_some hf
    have heq : e.tagName = s := of_decide_eq_true hval
    rw [← heq]
    exact List.mem_map_of_mem RunEvent.tagName hmem

/-- Witness for C8 at a concrete unknown tag. -/
theorem unknown_tag_unrecognized_witness :
    "TotallyUnknownTag" ∉ runEventTagNames ∧
    toRunEventTag "TotallyUnknownTag" = .unrecognized "TotallyUnknownTag" :=
  ⟨by decide, unknown_tag_unrecognized "TotallyUnknownTag" (by decide)⟩

/-- C9: while subscribed, every received custom event is appended to the end
of the accumulated list (arrival order preserved) and the currently supplied
handler, if any, is invoked with that event; clearEvents resets the list to
empty without touching the subscription. -/
theorem custom_events_hook_behaviour (es : List CustomEventData)
    (st : CustomEventsHook) (e : CustomEventData) (hasHandler : Bool) :
    (receiveAll mountCustomEventsHook es hasHandler).events = es ∧
    (handleCustomEvent st e hasHandler).1.events = st.events ++ [e] ∧
    (handleCustomEvent st e hasHandler).2 = (if hasHandler then some e else none) ∧
    (handleCustomEvent st e hasHandler).1.subscribed = st.subscribed ∧
    (clearEvents st).events = [] ∧
    (clearEvents st).subscribed = st.subscribed := by
  refine ⟨?_, rfl, rfl, rfl, rfl, rfl⟩
  rw [receiveAll_events]
  rfl

/-- C10: on a session:created event the new session is prepended to the front
of the sessions list — existing entries keep their relative order after it —
and the current session id becomes the new session's session_id. -/
theorem session_created_prepends (st : SessionHookState) (s : SessionEntry) :
    (handleSessionCreated st s).sessions = s :: st.sessions ∧
    (handleSessionCreated st s).currentSessionId = some s.session_id :=
  ⟨rfl, rfl⟩

end Agno
